import Mathlib

/-!
Verification development for the memrate stressor (`src/stress-memrate.c`).

The file shallowly embeds the rate-controlled memory access engine:

* the 16-element cursor loops of the read/write strategies
  (`STRESS_MEMRATE_READ`, `STRESS_MEMRATE_WRITE`, `STRESS_MEMRATE_WRITE_NT`),
* the pass-granularity selection `stress_memrate_loops`,
* the duty-cycle rate controller (`stress_memrate_memset_rate` and the
  `STRESS_MEMRATE_*_RATE` chunk loops), with wall-clock time modelled as an
  explicit rational-valued clock supplied per chunk,
* the dispatch rule `stress_memrate_dispatch` and the strategy catalogue
  `memrate_info`,
* the driver's stats accumulation (`stress_memrate_child`) with the
  SIGALRM-driven non-local jump modelled as an event cutting the dispatch
  sequence short,
* the final reporting loop of `stress_memrate`.

C `double` values (durations, kilobyte accumulators) are modelled as `ℚ`;
`uint64_t` quantities are modelled as `ℕ` (none of the modelled arithmetic
can overflow 64 bits on the inputs the program admits).  Buffers are modelled
by byte offsets: a pointer is its offset from `start`.
-/

/-- `KB` constant from stress-ng (1024 bytes). -/
def KB : ℕ := 1024

/-- `MB` constant from stress-ng (1048576 bytes). -/
def MB : ℕ := 1048576

/-- `MIN_MEMRATE_BYTES` (4 * KB). -/
def MIN_MEMRATE_BYTES : ℕ := 4 * KB

/-- `DEFAULT_MEMRATE_BYTES` (256 * MB). -/
def DEFAULT_MEMRATE_BYTES : ℕ := 256 * MB

/-- The `~0ULL` sentinel marking an unlimited rate target. -/
def UNLIMITED_MBS : ℕ := 2 ^ 64 - 1

/-- Cursor trajectory of the unthrottled strategy loops:
`for (ptr = start; ptr < end; ptr += 16)` where one step advances the cursor
by `step = 16 * sizeof(type)` bytes.  `ptr` and `e` are byte offsets from
`start`; the function returns the final value of `ptr`.  The loop guard only
checks `ptr < e` before a full 16-element step, so the final step may pass
`e`. -/
def memrateLoopPtr (step ptr e : ℕ) : ℕ :=
  if h : 0 < step ∧ ptr < e then memrateLoopPtr step (ptr + step) e else ptr
termination_by e - ptr
decreasing_by omega

/-- The `for (chunk_shift = 20; chunk_shift >= 10; chunk_shift--)` search of
`stress_memrate_loops`, re-indexed structurally: the argument `k + 1`
corresponds to the iteration at `chunk_shift = 9 + (k + 1)`, so the initial
call with `11` starts at shift 20, and `0` is the fall-through after shift 10
failed, returning `best_fit`.  The power-of-two test
`((bytes >> chunk_shift) << chunk_shift) == bytes` and the guard
`n <= best_fit` (with `n = 1ULL << chunk_shift`) are kept literally. -/
def memrateLoopsGo (memrate_bytes best_fit : ℕ) : ℕ → ℕ
  | 0 => best_fit
  | k + 1 =>
    if (memrate_bytes >>> (9 + (k + 1))) <<< (9 + (k + 1)) = memrate_bytes ∧
        1 <<< (9 + (k + 1)) ≤ best_fit
    then 1 <<< (9 + (k + 1))
    else memrateLoopsGo memrate_bytes best_fit k

/-- `stress_memrate_loops(context, size)`: `best_fit = bytes / size`, then the
power-of-two search from 1 MB down to 1 K, returning `best_fit` when the
search falls through. -/
def stress_memrate_loops (memrate_bytes size : ℕ) : ℕ :=
  memrateLoopsGo memrate_bytes (memrate_bytes / size) 11

/-- `STRESS_MEMRATE_READ(size, type, prefetch)`: the unthrottled read pass of
element width `W = sizeof(type)` bytes over a buffer of `memrate_bytes`
bytes; returns `((uintptr_t)ptr - (uintptr_t)start) / KB` and `*valid = true`.
The volatile reads have no modelled effect. -/
def stress_memrate_read (memrate_bytes W : ℕ) : ℕ × Bool :=
  (memrateLoopPtr (16 * W) 0 memrate_bytes / KB, true)

/-- `STRESS_MEMRATE_WRITE(size, type)`: the unthrottled write pass of element
width `W = sizeof(type)` bytes; same cursor arithmetic and return value as
the read pass. -/
def stress_memrate_write (memrate_bytes W : ℕ) : ℕ × Bool :=
  (memrateLoopPtr (16 * W) 0 memrate_bytes / KB, true)

/-- `stress_memrate_memset`: one `memset` over the whole buffer, returning
`size / KB` and `*valid = true`. -/
def stress_memrate_memset (memrate_bytes : ℕ) : ℕ × Bool :=
  (memrate_bytes / KB, true)

/-- One throttling step of the rate controller, as it appears after every
chunk of every `*_rate` variant: the chunk ended at wall-clock time
`clock j` (the pass started at `t1`), the cumulative budget is
`(j + 1) * dur`, and the controller nanosleeps the slack exactly when it is
non-negative (`none` records that no sleep happened). -/
def sleepEntry (dur t1 : ℚ) (clock : ℕ → ℚ) (j : ℕ) : Option ℚ :=
  if 0 ≤ ((j : ℚ) + 1) * dur - (clock j - t1)
  then some (((j : ℚ) + 1) * dur - (clock j - t1)) else none

/-- Outer chunk loop shared by `STRESS_MEMRATE_READ_RATE`,
`STRESS_MEMRATE_WRITE_RATE` and `STRESS_MEMRATE_WRITE_NT_RATE`:
`for (ptr = start; ptr < end;)` where each iteration runs the 16-element
inner loop up to `write_end = STRESS_PTR_MINIMUM(ptr + loop_elements, end)`
(the inner loop may pass `write_end`), then adds `dur` to `total_dur`,
computes `dur_remainder = total_dur - (t2 - t1)` and nanosleeps it when
non-negative.  `i` numbers the chunks so that `clock i` is the value
`stress_time_now()` returns at the end of chunk `i`.  Returns the final
cursor, the final `total_dur`, and the per-chunk sleep record. -/
def memrateRatePass (stepBytes loopSize : ℕ) (dur t1 : ℚ) (clock : ℕ → ℚ)
    (ptr e i : ℕ) (td : ℚ) : ℕ × ℚ × List (Option ℚ) :=
  if h : 0 < stepBytes ∧ 0 < loopSize ∧ ptr < e then
    let td' := td + dur
    let rem := td' - (clock i - t1)
    let rest := memrateRatePass stepBytes loopSize dur t1 clock
      (memrateLoopPtr stepBytes ptr (min (ptr + loopSize) e)) e (i + 1) td'
    (rest.1, rest.2.1, (if 0 ≤ rem then some rem else none) :: rest.2.2)
  else (ptr, td, [])
termination_by e - ptr
decreasing_by
  have key : ∀ q d p, q - p ≤ d → p < q → q ≤ memrateLoopPtr stepBytes p q := by
    intro q d
    induction d with
    | zero => intro p h1 h2; omega
    | succ n ih =>
      intro p h1 h2
      rw [memrateLoopPtr, dif_pos ⟨h.1, h2⟩]
      by_cases h3 : p + stepBytes < q
      · exact ih (p + stepBytes) (by omega) h3
      · rw [memrateLoopPtr, dif_neg (by omega)]
        omega
  have h4 : ptr < min (ptr + loopSize) e := by omega
  have h5 := key (min (ptr + loopSize) e) (min (ptr + loopSize) e) ptr (by omega) h4
  omega

/-- Result of one rate-limited strategy invocation: the returned kilobyte
count, the `*valid` flag, and the recorded throttling sleeps. -/
structure MemrateRateResult where
  kbytes : ℕ
  valid : Bool
  sleeps : List (Option ℚ)

/-- `STRESS_MEMRATE_READ_RATE(size, type, prefetch)`: chunk granularity from
`stress_memrate_loops(context, sizeof(type) * 16)`,
`loop_size = loops * sizeof(type) * 16`,
`dur = loop_size / (MB * memrate_rd_mbs)`, then the throttled chunk loop. -/
def stress_memrate_read_rate (memrate_bytes W : ℕ) (rd_mbs t1 : ℚ)
    (clock : ℕ → ℚ) : MemrateRateResult :=
  let loops := stress_memrate_loops memrate_bytes (16 * W)
  let loop_size := loops * W * 16
  let dur := (loop_size : ℚ) / ((MB : ℚ) * rd_mbs)
  let r := memrateRatePass (16 * W) loop_size dur t1 clock 0 memrate_bytes 0 0
  { kbytes := r.1 / KB, valid := true, sleeps := r.2.2 }

/-- `while`-style chunk loop of `stress_memrate_memset_rate`:
`for (ptr = start; (ptr + chunk_size) < end; ptr += chunk_size)` with the
same per-chunk budget/sleep accounting as `memrateRatePass`.  Returns the
final cursor, the next chunk index, the final `total_dur`, and the sleep
record. -/
def memsetRateLoop (chunk_size : ℕ) (dur t1 : ℚ) (clock : ℕ → ℚ)
    (ptr e i : ℕ) (td : ℚ) : ℕ × ℕ × ℚ × List (Option ℚ) :=
  if h : 0 < chunk_size ∧ ptr + chunk_size < e then
    let td' := td + dur
    let rem := td' - (clock i - t1)
    let rest := memsetRateLoop chunk_size dur t1 clock (ptr + chunk_size) e (i + 1) td'
    (rest.1, rest.2.1, rest.2.2.1, (if 0 ≤ rem then some rem else none) :: rest.2.2.2)
  else (ptr, i, td, [])
termination_by e - ptr
decreasing_by omega

/-- `stress_memrate_memset_rate`: `chunk_size = min(size, MB)`,
`dur = chunk_size / (MB * memrate_wr_mbs)`, the chunk loop, then the
residual `if (end - ptr > 0)` block which memsets the tail, performs one
more budget/sleep step with the same `dur`, and sets `ptr = end`. -/
def stress_memrate_memset_rate (memrate_bytes : ℕ) (wr_mbs t1 : ℚ)
    (clock : ℕ → ℚ) : MemrateRateResult :=
  let chunk_size := min memrate_bytes MB
  let dur := (chunk_size : ℚ) / ((MB : ℚ) * wr_mbs)
  let r := memsetRateLoop chunk_size dur t1 clock 0 memrate_bytes 0 0
  if 0 < memrate_bytes - r.1 then
    let td' := r.2.2.1 + dur
    let rem := td' - (clock r.2.1 - t1)
    { kbytes := memrate_bytes / KB, valid := true,
      sleeps := r.2.2.2 ++ [if 0 ≤ rem then some rem else none] }
  else
    { kbytes := r.1 / KB, valid := true, sleeps := r.2.2.2 }

/-- Effect of a write strategy's stores on the buffer: every byte of
`[0, upTo)` is overwritten with the 0xaa fill pattern. -/
def writeBytesAA (buf : ℕ → ℕ) (upTo : ℕ) : ℕ → ℕ :=
  fun a => if a < upTo then 0xaa else buf a

/-- `STRESS_MEMRATE_WRITE_NT(size, type, op, init)`: the guard
`if (!stress_cpu_x86_has_sse2()) { *valid = false; return 0; }` precedes any
store; otherwise the 16-element non-temporal store loop runs with the usual
cursor arithmetic.  Returns `(kbytes, valid, buffer after the call)`. -/
def stress_memrate_write_nt (sse2 : Bool) (memrate_bytes W : ℕ)
    (buf : ℕ → ℕ) : ℕ × Bool × (ℕ → ℕ) :=
  if sse2 = false then (0, false, buf)
  else
    let p := memrateLoopPtr (16 * W) 0 memrate_bytes
    (p / KB, true, writeBytesAA buf p)

/-- `STRESS_MEMRATE_WRITE_NT_RATE(size, type, op, init)`: same SSE2 guard
before any store or timing work; otherwise the rate-limited non-temporal
store pass. -/
def stress_memrate_write_nt_rate (sse2 : Bool) (memrate_bytes W : ℕ)
    (wr_mbs t1 : ℚ) (clock : ℕ → ℚ) (buf : ℕ → ℕ) :
    ℕ × Bool × (ℕ → ℕ) × List (Option ℚ) :=
  if sse2 = false then (0, false, buf, [])
  else
    let loops := stress_memrate_loops memrate_bytes (16 * W)
    let loop_size := loops * W * 16
    let dur := (loop_size : ℚ) / ((MB : ℚ) * wr_mbs)
    let r := memrateRatePass (16 * W) loop_size dur t1 clock 0 memrate_bytes 0 0
    (r.1 / KB, true, writeBytesAA buf r.1, r.2.2)

/-- The `rdwr` field of a catalogue entry (`MR_RD` / `MR_WR`). -/
inductive MemrateRdWr
  | MR_RD
  | MR_WR
deriving DecidableEq

/-- Which of the two entry points `stress_memrate_dispatch` invokes. -/
inductive MemrateVariant
  | unthrottled
  | rate_limited
deriving DecidableEq

/-- The configuration part of `stress_memrate_context_t` (the buffer pointers
and stats pointer are modelled separately). -/
structure stress_memrate_context_t where
  memrate_bytes : ℕ
  memrate_rd_mbs : ℕ
  memrate_wr_mbs : ℕ
  memrate_flush : Bool

/-- `stress_memrate_dispatch`: invoke `info->func` (unthrottled) when the
entry's direction matches a rate target equal to `~0ULL`, else
`info->func_rate`. -/
def stress_memrate_dispatch (rdwr : MemrateRdWr)
    (context : stress_memrate_context_t) : MemrateVariant :=
  if (rdwr = MemrateRdWr.MR_RD ∧ context.memrate_rd_mbs = UNLIMITED_MBS) ∨
      (rdwr = MemrateRdWr.MR_WR ∧ context.memrate_wr_mbs = UNLIMITED_MBS)
  then MemrateVariant.unthrottled
  else MemrateVariant.rate_limited

/-- The `memrate_info[]` catalogue (name and `rdwr` direction of each entry),
in source order, with every build-time capability present
(`HAVE_ASM_X86_REP_STOS*`, `HAVE_NT_STORE*`, `HAVE_VECMATH`,
`HAVE_BUILTIN_PREFETCH`, `HAVE_INT128_T`). -/
def memrate_info : List (String × MemrateRdWr) :=
  [("write64stoq", MemrateRdWr.MR_WR), ("write32stow", MemrateRdWr.MR_WR),
   ("write16stod", MemrateRdWr.MR_WR), ("write8stob", MemrateRdWr.MR_WR),
   ("write128nt", MemrateRdWr.MR_WR), ("write64nt", MemrateRdWr.MR_WR),
   ("write32nt", MemrateRdWr.MR_WR), ("write1024", MemrateRdWr.MR_WR),
   ("write512", MemrateRdWr.MR_WR), ("write256", MemrateRdWr.MR_WR),
   ("write128", MemrateRdWr.MR_WR), ("write64", MemrateRdWr.MR_WR),
   ("write32", MemrateRdWr.MR_WR), ("write16", MemrateRdWr.MR_WR),
   ("write8", MemrateRdWr.MR_WR), ("memset", MemrateRdWr.MR_WR),
   ("read128pf", MemrateRdWr.MR_RD), ("read64pf", MemrateRdWr.MR_RD),
   ("read1024", MemrateRdWr.MR_RD), ("read512", MemrateRdWr.MR_RD),
   ("read256", MemrateRdWr.MR_RD), ("read128", MemrateRdWr.MR_RD),
   ("read64", MemrateRdWr.MR_RD), ("read32", MemrateRdWr.MR_RD),
   ("read16", MemrateRdWr.MR_RD), ("read8", MemrateRdWr.MR_RD)]

/-- The context as initialized by `stress_memrate` before any
`stress_get_setting` override, i.e. the configuration of a run where no
memrate option was supplied. -/
def stress_memrate_default_context : stress_memrate_context_t :=
  { memrate_bytes := DEFAULT_MEMRATE_BYTES
    memrate_rd_mbs := UNLIMITED_MBS
    memrate_wr_mbs := UNLIMITED_MBS
    memrate_flush := false }

/-- `stress_memrate_stats_t`: one stats slot (`duration`, `kbytes`,
`valid`). -/
structure stress_memrate_stats_t where
  duration : ℚ
  kbytes : ℚ
  valid : Bool
deriving DecidableEq

/-- The stats table as initialized by `stress_memrate` (every slot zeroed
with `valid = false`) before the child starts. -/
def memrate_stats_init : ℕ → stress_memrate_stats_t :=
  fun _ => { duration := 0, kbytes := 0, valid := false }

/-- One dispatch performed by `stress_memrate_child`'s inner loop, as seen
from the outside: either the strategy returned normally (with its kilobyte
count, the two `stress_time_now()` readings around it and its `valid`
outcome), or SIGALRM fired during the dispatch and `siglongjmp` transferred
control to the recovery point while the strategy's internal loop had already
processed `partialKbytes`. -/
inductive DispatchEvent
  | completed (kbytes : ℕ) (t1 t2 : ℚ) (valid : Bool)
  | alarmDuring (partialKbytes : ℕ)

/-- Whether a dispatch event is the SIGALRM cut-off. -/
def DispatchEvent.isAlarm : DispatchEvent → Bool
  | DispatchEvent.completed _ _ _ _ => false
  | DispatchEvent.alarmDuring _ => true

/-- Well-formedness of a completed dispatch: `stress_time_now()` is
non-decreasing, so the second reading is at least the first. -/
def DispatchEvent.timeOk : DispatchEvent → Prop
  | DispatchEvent.completed _ ta tb _ => ta ≤ tb
  | DispatchEvent.alarmDuring _ => True

/-- The stats update after a completed dispatch of catalogue entry `i`
(lines `context->stats[i].kbytes += ...; context->stats[i].duration += ...;
context->stats[i].valid = valid;`). -/
def updateSlot (stats : ℕ → stress_memrate_stats_t) (i : ℕ) (kbytes : ℕ)
    (d : ℚ) (valid : Bool) : ℕ → stress_memrate_stats_t :=
  fun j =>
    if j = i then
      { duration := (stats i).duration + d
        kbytes := (stats i).kbytes + (kbytes : ℚ)
        valid := valid }
    else stats j

/-- The dispatch sequence of `stress_memrate_child`: each completed dispatch
of entry `i` updates slot `i`; the first dispatch cut off by the alarm jumps
to `tidy`, skipping the accumulation statements of that dispatch and every
later dispatch, so the stats are left as they were. -/
def runDispatches (stats : ℕ → stress_memrate_stats_t) :
    List (ℕ × DispatchEvent) → (ℕ → stress_memrate_stats_t)
  | [] => stats
  | (i, DispatchEvent.completed kbytes t1 t2 valid) :: rest =>
      runDispatches (updateSlot stats i kbytes (t2 - t1) valid) rest
  | (_, DispatchEvent.alarmDuring _) :: _ => stats

/-- One line of the final report emitted by `stress_memrate` for a slot:
either the `"%s MB per sec"` metric or the `"interrupted early"` message. -/
inductive MemrateReport
  | metric (name : String) (rate : ℚ)
  | interrupted_early (name : String)
deriving DecidableEq

/-- The body of the reporting loop of `stress_memrate` for one slot:
`if (!valid) continue;` emits nothing, `duration > 0.0` emits the rate
`kbytes / (duration * KB)`, otherwise the `"interrupted early"` message. -/
def stress_memrate_report_slot (name : String) (s : stress_memrate_stats_t) :
    Option MemrateReport :=
  if s.valid = false then none
  else if 0 < s.duration then
    some (MemrateReport.metric name (s.kbytes / (s.duration * (KB : ℚ))))
  else some (MemrateReport.interrupted_early name)

/-- The whole final report: one optional line per catalogue slot, in order. -/
def stress_memrate_report (slots : List (String × stress_memrate_stats_t)) :
    List MemrateReport :=
  slots.filterMap (fun ns => stress_memrate_report_slot ns.1 ns.2)

/-- Control point of the child process, for the cancellation protocol:
`running` is the main loop after the `sigsetjmp` recovery point, `tidy` is
the teardown label (its first statement is the `munmap` of the buffer),
`exited` is after `return`. -/
inductive ChildPhase
  | running
  | tidy
  | exited
deriving DecidableEq

/-- Observable protocol state of `stress_memrate_child`: the current control
point, how many times the `tidy` path has executed its `munmap`, and whether
the SIGALRM handler is still armed (installed and not reset). -/
structure ChildState where
  phase : ChildPhase
  munmaps : ℕ
  armed : Bool
deriving DecidableEq

/-- Events the child can experience: a SIGALRM delivery, the main loop
finishing normally (`keep_stressing` false), and the teardown path reaching
`return`. -/
inductive ChildEvent
  | alarm
  | loopDone
  | tidyDone
deriving DecidableEq

/-- State after `sigsetjmp` returned 0 and `stress_sighandler` installed
`stress_memrate_alarm_handler` for SIGALRM. -/
def stress_memrate_child_init : ChildState :=
  { phase := ChildPhase.running, munmaps := 0, armed := true }

/-- Transition relation of the child, read off the source: a SIGALRM
delivered while the handler is armed runs `siglongjmp(jmpbuf, 1)`, which
lands at the recovery point and falls through to `tidy`, whose `munmap`
executes — nothing on this path disarms the handler, so this applies in the
`tidy` phase as well; normal loop completion reaches `tidy` the same way;
`tidyDone` models the final `return` from `tidy`. -/
def stress_memrate_child_step (s : ChildState) : ChildEvent → ChildState
  | ChildEvent.alarm =>
      match s.phase, s.armed with
      | ChildPhase.exited, _ => s
      | _, true => { phase := ChildPhase.tidy, munmaps := s.munmaps + 1, armed := s.armed }
      | _, false => s
  | ChildEvent.loopDone =>
      match s.phase with
      | ChildPhase.running =>
          { phase := ChildPhase.tidy, munmaps := s.munmaps + 1, armed := s.armed }
      | _ => s
  | ChildEvent.tidyDone =>
      match s.phase with
      | ChildPhase.tidy => { s with phase := ChildPhase.exited }
      | _ => s

/-- Iteration count of the `memsetRateLoop` chunk loop as a function of the
remaining span `d = e - ptr`: the loop body runs while `ptr + chunk < e`. -/
def fullChunks (chunk_size : ℕ) (d : ℕ) : ℕ :=
  if h : 0 < chunk_size ∧ chunk_size < d then 1 + fullChunks chunk_size (d - chunk_size)
  else 0
termination_by d
decreasing_by omega

/-- Ceiling-division recurrence used throughout: for `0 < d`,
`(d + c - 1) / c = (d - 1) / c + 1`. -/
theorem ceil_div_rec (c d : ℕ) (hc : 0 < c) (hd : 0 < d) :
    (d + c - 1) / c = (d - 1) / c + 1 := by
  have h : d + c - 1 = (d - 1) + c := by omega
  rw [h, Nat.add_div_right _ hc]

/-- Closed form of the strategy cursor loop: starting at `ptr`, the cursor
stops at `ptr + step * ⌈(e - ptr) / step⌉`. -/
theorem memrateLoopPtr_eq (step : ℕ) (hs : 0 < step) :
    ∀ d ptr e, e - ptr = d →
      memrateLoopPtr step ptr e = ptr + step * ((e - ptr + step - 1) / step) := by
  intro d
  induction d using Nat.strong_induction_on with
  | _ d ih =>
    intro ptr e hd
    rw [memrateLoopPtr]
    by_cases hpe : ptr < e
    · rw [dif_pos ⟨hs, hpe⟩]
      have hlt : e - (ptr + step) < d := by omega
      rw [ih _ hlt (ptr + step) e rfl]
      have hD : 0 < e - ptr := by omega
      have key : (e - (ptr + step) + step - 1) / step = (e - ptr - 1) / step := by
        by_cases hcase : e - ptr ≤ step
        · have h1 : e - (ptr + step) = 0 := by omega
          rw [h1]
          have h2 : (0 + step - 1) / step = 0 := Nat.div_eq_of_lt (by omega)
          have h3 : (e - ptr - 1) / step = 0 := Nat.div_eq_of_lt (by omega)
          rw [h2, h3]
        · have h1 : e - (ptr + step) + step - 1 = e - ptr - 1 := by omega
          rw [h1]
      rw [key, ceil_div_rec step (e - ptr) hs hD]
      ring
    · rw [dif_neg (by omega)]
      have h0 : e - ptr = 0 := by omega
      rw [h0]
      have h1 : (0 + step - 1) / step = 0 := Nat.div_eq_of_lt (by omega)
      rw [h1]
      omega

/-- A started cursor loop always runs to (at least) the end marker. -/
theorem memrateLoopPtr_ge (step ptr e : ℕ) (hs : 0 < step) (hpe : ptr < e) :
    e ≤ memrateLoopPtr step ptr e := by
  rw [memrateLoopPtr_eq step hs (e - ptr) ptr e rfl]
  have hD : 0 < e - ptr := by omega
  rw [ceil_div_rec step (e - ptr) hs hD]
  have h := Nat.div_add_mod (e - ptr - 1) step
  have hmod := Nat.mod_lt (e - ptr - 1) hs
  rw [Nat.mul_add, Nat.mul_one]
  generalize hsq : step * ((e - ptr - 1) / step) = sq at h ⊢
  omega

/-- When `step` divides the span exactly the cursor loop lands exactly on
the end marker. -/
theorem memrateLoopPtr_exact (step ptr L : ℕ) (hs : 0 < step) (hdvd : step ∣ L) :
    memrateLoopPtr step ptr (ptr + L) = ptr + L := by
  obtain ⟨q, hq⟩ := hdvd
  rw [memrateLoopPtr_eq step hs (ptr + L - ptr) ptr (ptr + L) rfl]
  have hspan : ptr + L - ptr = L := by omega
  rcases Nat.eq_zero_or_pos q with hq0 | hq0
  · subst hq0
    simp at hq
    subst hq
    have h2 : (0 + step - 1) / step = 0 := Nat.div_eq_of_lt (by omega)
    rw [hspan, h2]
    omega
  · have h1 : L + step - 1 = step * q + (step - 1) := by omega
    rw [hspan, h1, Nat.mul_add_div hs]
    have h2 : (step - 1) / step = 0 := Nat.div_eq_of_lt (by omega)
    rw [h2, hq]
    ring

/-- The C test `((bytes >> chunk_shift) << chunk_shift) == bytes` is the
divisibility of `bytes` by `2 ^ chunk_shift`. -/
theorem memrate_shift_dvd (memrate_bytes s : ℕ) :
    ((memrate_bytes >>> s) <<< s = memrate_bytes) ↔ 2 ^ s ∣ memrate_bytes := by
  rw [Nat.shiftLeft_eq, Nat.shiftRight_eq_div_pow]
  constructor
  · intro h
    exact ⟨memrate_bytes / 2 ^ s, by rw [mul_comm]; exact h.symm⟩
  · intro h
    exact Nat.div_mul_cancel h

/-- `1 <<< s` is `2 ^ s`. -/
theorem one_shiftLeft_eq (s : ℕ) : (1 : ℕ) <<< s = 2 ^ s := by
  simp [Nat.shiftLeft_eq]

/-- Characterization of the power-of-two search: over the shift range
`[10, 9 + k]` it either returns the largest power of two that both divides
`memrate_bytes` and is at most `best_fit`, or falls through to `best_fit`
when no power in the range satisfies both conditions. -/
theorem memrateLoopsGo_spec (memrate_bytes best_fit : ℕ) :
    ∀ k : ℕ,
      (memrateLoopsGo memrate_bytes best_fit k = best_fit ∧
        ∀ s, 10 ≤ s → s ≤ 9 + k → ¬ (2 ^ s ∣ memrate_bytes ∧ 2 ^ s ≤ best_fit)) ∨
      (∃ s, 10 ≤ s ∧ s ≤ 9 + k ∧ 2 ^ s ∣ memrate_bytes ∧ 2 ^ s ≤ best_fit ∧
        memrateLoopsGo memrate_bytes best_fit k = 2 ^ s ∧
        ∀ t, s < t → t ≤ 9 + k → ¬ (2 ^ t ∣ memrate_bytes ∧ 2 ^ t ≤ best_fit)) := by
  intro k
  induction k with
  | zero =>
    left
    exact ⟨rfl, fun s h1 h2 => absurd (h1.trans h2) (by omega)⟩
  | succ n ih =>
    rw [memrateLoopsGo]
    by_cases hc : (memrate_bytes >>> (9 + (n + 1))) <<< (9 + (n + 1)) = memrate_bytes ∧
        1 <<< (9 + (n + 1)) ≤ best_fit
    · right
      refine ⟨9 + (n + 1), by omega, by omega, (memrate_shift_dvd _ _).mp hc.1, ?_, ?_, ?_⟩
      · have h2 := hc.2
        rw [one_shiftLeft_eq] at h2
        exact h2
      · rw [if_pos hc, one_shiftLeft_eq]
      · intro t h1 h2
        omega
    · rw [if_neg hc]
      have hnotc : ¬ (2 ^ (9 + (n + 1)) ∣ memrate_bytes ∧ 2 ^ (9 + (n + 1)) ≤ best_fit) := by
        intro hcontra
        apply hc
        refine ⟨(memrate_shift_dvd _ _).mpr hcontra.1, ?_⟩
        rw [one_shiftLeft_eq]
        exact hcontra.2
      rcases ih with ⟨hr, hall⟩ | ⟨s, hs1, hs2, hdvd, hle, hres, hmax⟩
      · left
        refine ⟨hr, fun s h1 h2 => ?_⟩
        by_cases h3 : s ≤ 9 + n
        · exact hall s h1 h3
        · have hseq : s = 9 + (n + 1) := by omega
          rw [hseq]
          exact hnotc
      · right
        refine ⟨s, hs1, by omega, hdvd, hle, hres, fun t h1 h2 => ?_⟩
        by_cases h3 : t ≤ 9 + n
        · exact hmax t h1 h3
        · have hteq : t = 9 + (n + 1) := by omega
          rw [hteq]
          exact hnotc

/-- A chunk count chosen by `stress_memrate_loops` is positive whenever the
per-step size is positive and no larger than the buffer. -/
theorem stress_memrate_loops_pos (memrate_bytes size : ℕ) (hsz : 0 < size)
    (hle : size ≤ memrate_bytes) : 0 < stress_memrate_loops memrate_bytes size := by
  have hbf : 0 < memrate_bytes / size := Nat.div_pos hle hsz
  unfold stress_memrate_loops
  rcases memrateLoopsGo_spec memrate_bytes (memrate_bytes / size) 11 with ⟨hr, _⟩ |
      ⟨s, _, _, _, _, hres, _⟩
  · rw [hr]; exact hbf
  · rw [hres]; positivity

/-- The chunk count never exceeds `best_fit = bytes / size`. -/
theorem stress_memrate_loops_le (memrate_bytes size : ℕ) :
    stress_memrate_loops memrate_bytes size ≤ memrate_bytes / size := by
  unfold stress_memrate_loops
  rcases memrateLoopsGo_spec memrate_bytes (memrate_bytes / size) 11 with ⟨hr, _⟩ |
      ⟨s, _, _, _, hle, hres, _⟩
  · rw [hr]
  · rw [hres]; exact hle

/-- Gluing step for sleep records: one controller step at chunk index `i`
followed by the later entries re-indexed from `i + 1`. -/
theorem sleepEntry_range_cons (dur t1 : ℚ) (clock : ℕ → ℚ) (i n : ℕ) :
    (if 0 ≤ (i : ℚ) * dur + dur - (clock i - t1)
      then some ((i : ℚ) * dur + dur - (clock i - t1)) else none) ::
      (List.range n).map (fun m => sleepEntry dur t1 clock (i + 1 + m)) =
      (List.range (n + 1)).map (fun m => sleepEntry dur t1 clock (i + m)) := by
  rw [List.range_succ_eq_map, List.map_cons, List.map_map]
  congr 1
  · have hq : (i : ℚ) * dur + dur = ((i : ℚ) + 1) * dur := by ring
    rw [hq]
    rfl
  · apply List.map_congr_left
    intro m hm
    simp only [Function.comp_apply]
    have h1 : i + 1 + m = i + Nat.succ m := by omega
    rw [h1]

/-- One unfolding of the throttled chunk loop when the loop body runs. -/
theorem memrateRatePass_step (stepBytes loopSize : ℕ) (dur t1 : ℚ)
    (clock : ℕ → ℚ) (ptr e i : ℕ) (td : ℚ)
    (h : 0 < stepBytes ∧ 0 < loopSize ∧ ptr < e) :
    (memrateRatePass stepBytes loopSize dur t1 clock ptr e i td).2.2 =
      (if 0 ≤ td + dur - (clock i - t1) then some (td + dur - (clock i - t1))
        else none) ::
        (memrateRatePass stepBytes loopSize dur t1 clock
          (memrateLoopPtr stepBytes ptr (min (ptr + loopSize) e)) e (i + 1)
          (td + dur)).2.2 := by
  rw [memrateRatePass, dif_pos h]

/-- The throttled chunk loop records nothing once the cursor has reached the
end. -/
theorem memrateRatePass_stop (stepBytes loopSize : ℕ) (dur t1 : ℚ)
    (clock : ℕ → ℚ) (ptr e i : ℕ) (td : ℚ) (h : ¬ ptr < e) :
    (memrateRatePass stepBytes loopSize dur t1 clock ptr e i td).2.2 =
      ([] : List (Option ℚ)) := by
  rw [memrateRatePass, dif_neg (fun hcon => h hcon.2.2)]

/-- The throttling sleeps of one `*_RATE` pass, in closed form: the pass
performs `⌈(e - ptr) / loopSize⌉` chunks and after chunk `j` the controller
holds cumulative budget `(j + 1) * dur` and sleeps exactly the non-negative
slack (`sleepEntry`). -/
theorem memrateRatePass_sleeps (stepBytes loopSize : ℕ) (dur t1 : ℚ)
    (clock : ℕ → ℚ) (hs : 0 < stepBytes) (hl : 0 < loopSize)
    (hdvd : stepBytes ∣ loopSize) :
    ∀ d e ptr i, e - ptr = d →
      (memrateRatePass stepBytes loopSize dur t1 clock ptr e i ((i : ℚ) * dur)).2.2 =
        (List.range ((e - ptr + loopSize - 1) / loopSize)).map
          (fun m => sleepEntry dur t1 clock (i + m)) := by
  intro d
  induction d using Nat.strong_induction_on with
  | _ d ih =>
    intro e ptr i hd
    by_cases hpe : ptr < e
    · rw [memrateRatePass_step stepBytes loopSize dur t1 clock ptr e i _ ⟨hs, hl, hpe⟩]
      by_cases hcase : ptr + loopSize < e
      · have hmin : min (ptr + loopSize) e = ptr + loopSize := by omega
        rw [hmin, memrateLoopPtr_exact stepBytes ptr loopSize hs hdvd]
        have hrec := ih (e - (ptr + loopSize)) (by omega) e (ptr + loopSize) (i + 1) rfl
        have harg : ((i + 1 : ℕ) : ℚ) * dur = (i : ℚ) * dur + dur := by push_cast; ring
        rw [harg] at hrec
        rw [hrec]
        have hn : (e - ptr + loopSize - 1) / loopSize =
            (e - (ptr + loopSize) + loopSize - 1) / loopSize + 1 := by
          have h1 : e - (ptr + loopSize) + loopSize - 1 = e - ptr - 1 := by omega
          rw [h1, ceil_div_rec loopSize (e - ptr) hl (by omega)]
        rw [hn]
        exact sleepEntry_range_cons dur t1 clock i _
      · have hmin : min (ptr + loopSize) e = e := by omega
        rw [hmin]
        have hge := memrateLoopPtr_ge stepBytes ptr e hs hpe
        rw [memrateRatePass_stop stepBytes loopSize dur t1 clock _ e (i + 1) _ (by omega)]
        have hn : (e - ptr + loopSize - 1) / loopSize = 1 := by
          rw [ceil_div_rec loopSize (e - ptr) hl (by omega)]
          have h2 : (e - ptr - 1) / loopSize = 0 := Nat.div_eq_of_lt (by omega)
          rw [h2]
        rw [hn]
        have hglue := sleepEntry_range_cons dur t1 clock i 0
        simpa using hglue
    · rw [memrateRatePass_stop stepBytes loopSize dur t1 clock ptr e i _ hpe]
      have h0 : e - ptr = 0 := by omega
      rw [h0]
      have h1 : (0 + loopSize - 1) / loopSize = 0 := Nat.div_eq_of_lt (by omega)
      rw [h1]
      simp

/-- One unfolding of the `memsetRateLoop` chunk loop when the body runs. -/
theorem memsetRateLoop_step (chunk_size : ℕ) (dur t1 : ℚ) (clock : ℕ → ℚ)
    (ptr e i : ℕ) (td : ℚ) (h : 0 < chunk_size ∧ ptr + chunk_size < e) :
    memsetRateLoop chunk_size dur t1 clock ptr e i td =
      ((memsetRateLoop chunk_size dur t1 clock (ptr + chunk_size) e (i + 1) (td + dur)).1,
       (memsetRateLoop chunk_size dur t1 clock (ptr + chunk_size) e (i + 1) (td + dur)).2.1,
       (memsetRateLoop chunk_size dur t1 clock (ptr + chunk_size) e (i + 1) (td + dur)).2.2.1,
       (if 0 ≤ td + dur - (clock i - t1) then some (td + dur - (clock i - t1)) else none) ::
         (memsetRateLoop chunk_size dur t1 clock (ptr + chunk_size) e (i + 1) (td + dur)).2.2.2) := by
  rw [memsetRateLoop, dif_pos h]

/-- The `memsetRateLoop` chunk loop stops as soon as a whole chunk no longer
fits strictly inside the buffer. -/
theorem memsetRateLoop_stop (chunk_size : ℕ) (dur t1 : ℚ) (clock : ℕ → ℚ)
    (ptr e i : ℕ) (td : ℚ) (h : ¬ ptr + chunk_size < e) :
    memsetRateLoop chunk_size dur t1 clock ptr e i td = (ptr, i, td, []) := by
  rw [memsetRateLoop, dif_neg (fun hcon => h hcon.2)]

/-- The chunk loop of `stress_memrate_memset_rate` runs as long as whole
chunks fit: it always stops strictly before the end. -/
theorem fullChunks_lt (chunk_size : ℕ) (hc : 0 < chunk_size) :
    ∀ d, 0 < d → chunk_size * fullChunks chunk_size d < d := by
  intro d
  induction d using Nat.strong_induction_on with
  | _ d ih =>
    intro hd
    rw [fullChunks]
    by_cases hcase : chunk_size < d
    · rw [dif_pos ⟨hc, hcase⟩, Nat.mul_add, Nat.mul_one]
      have := ih (d - chunk_size) (by omega) (by omega)
      omega
    · rw [dif_neg (by omega)]
      omega

/-- Full-chunk count plus the residual chunk is the ceiling
`⌈d / chunk_size⌉`. -/
theorem fullChunks_succ_eq (chunk_size : ℕ) (hc : 0 < chunk_size) :
    ∀ d, 0 < d → fullChunks chunk_size d + 1 = (d + chunk_size - 1) / chunk_size := by
  intro d
  induction d using Nat.strong_induction_on with
  | _ d ih =>
    intro hd
    rw [fullChunks, ceil_div_rec chunk_size d hc hd]
    by_cases hcase : chunk_size < d
    · rw [dif_pos ⟨hc, hcase⟩]
      have hrec := ih (d - chunk_size) (by omega) (by omega)
      rw [ceil_div_rec chunk_size (d - chunk_size) hc (by omega)] at hrec
      have h1 : d - chunk_size - 1 + chunk_size = d - 1 := by omega
      have h2 : (d - 1) / chunk_size = (d - chunk_size - 1) / chunk_size + 1 := by
        rw [← h1, Nat.add_div_right _ hc]
      omega
    · rw [dif_neg (by omega)]
      have h3 : (d - 1) / chunk_size = 0 := Nat.div_eq_of_lt (by omega)
      omega

/-- The `memsetRateLoop` chunk loop in closed form: starting at `ptr` with
chunk index `i` and running budget `i * dur`, it performs
`fullChunks chunk_size (e - ptr)` iterations, each recording its
`sleepEntry`, and leaves the cursor that many chunks further on. -/
theorem memsetRateLoop_spec (chunk_size : ℕ) (dur t1 : ℚ) (clock : ℕ → ℚ)
    (hc : 0 < chunk_size) :
    ∀ d e ptr i, e - ptr = d →
      memsetRateLoop chunk_size dur t1 clock ptr e i ((i : ℚ) * dur) =
        (ptr + chunk_size * fullChunks chunk_size (e - ptr),
         i + fullChunks chunk_size (e - ptr),
         ((i + fullChunks chunk_size (e - ptr) : ℕ) : ℚ) * dur,
         (List.range (fullChunks chunk_size (e - ptr))).map
           (fun m => sleepEntry dur t1 clock (i + m))) := by
  intro d
  induction d using Nat.strong_induction_on with
  | _ d ih =>
    intro e ptr i hd
    by_cases hcase : ptr + chunk_size < e
    · have hrec := ih (e - (ptr + chunk_size)) (by omega) e (ptr + chunk_size) (i + 1) rfl
      have harg : ((i + 1 : ℕ) : ℚ) * dur = (i : ℚ) * dur + dur := by push_cast; ring
      rw [harg] at hrec
      rw [memsetRateLoop_step chunk_size dur t1 clock ptr e i _ ⟨hc, hcase⟩, hrec]
      have hF : fullChunks chunk_size (e - ptr) =
          fullChunks chunk_size (e - (ptr + chunk_size)) + 1 := by
        rw [fullChunks, dif_pos ⟨hc, by omega⟩]
        have h4 : e - ptr - chunk_size = e - (ptr + chunk_size) := by omega
        rw [h4]
        omega
      rw [hF]
      refine Prod.ext ?_ (Prod.ext ?_ (Prod.ext ?_ ?_))
      · dsimp only
        ring
      · dsimp only
        omega
      · dsimp only
        have h5 : i + 1 + fullChunks chunk_size (e - (ptr + chunk_size)) =
            i + (fullChunks chunk_size (e - (ptr + chunk_size)) + 1) := by omega
        rw [h5]
      · dsimp only
        exact sleepEntry_range_cons dur t1 clock i _
    · rw [memsetRateLoop_stop chunk_size dur t1 clock ptr e i _ hcase]
      have hF : fullChunks chunk_size (e - ptr) = 0 := by
        rw [fullChunks, dif_neg (by omega)]
      rw [hF]
      simp

/-- C5: for every catalogue entry direction and run configuration,
`stress_memrate_dispatch` invokes the unthrottled variant exactly when the
direction-matching target rate (`memrate_rd_mbs` for `MR_RD` entries,
`memrate_wr_mbs` for `MR_WR` entries) equals the `~0ULL` sentinel, and
otherwise invokes the rate-limited variant. -/
theorem memrate_dispatch_unthrottled_iff (rdwr : MemrateRdWr)
    (context : stress_memrate_context_t) :
    stress_memrate_dispatch rdwr context = MemrateVariant.unthrottled ↔
      (match rdwr with
        | MemrateRdWr.MR_RD => context.memrate_rd_mbs
        | MemrateRdWr.MR_WR => context.memrate_wr_mbs) = UNLIMITED_MBS := by
  cases rdwr <;> simp only [stress_memrate_dispatch] <;> split <;> simp_all

/-- C10: with no rate options supplied, the context defaults to the
`~0ULL` unlimited sentinel for both rate targets, 256 MB of buffer and cache
flushing disabled, and by the dispatch rule every catalogue entry runs its
unthrottled variant. -/
theorem memrate_default_config_unthrottled :
    stress_memrate_default_context.memrate_rd_mbs = 2 ^ 64 - 1 ∧
    stress_memrate_default_context.memrate_wr_mbs = 2 ^ 64 - 1 ∧
    stress_memrate_default_context.memrate_bytes = 256 * MB ∧
    stress_memrate_default_context.memrate_flush = false ∧
    ∀ info ∈ memrate_info,
      stress_memrate_dispatch info.2 stress_memrate_default_context =
        MemrateVariant.unthrottled := by
  refine ⟨rfl, rfl, rfl, rfl, ?_⟩
  decide

/-- C6: both non-temporal write variants, invoked without SSE2 support,
return zero kilobytes with `valid = false`, leave the buffer untouched and
record no throttling sleeps (no fallback to a cached-store path). -/
theorem memrate_write_nt_no_sse2 (memrate_bytes W : ℕ) (wr_mbs t1 : ℚ)
    (clock : ℕ → ℚ) (buf : ℕ → ℕ) :
    stress_memrate_write_nt false memrate_bytes W buf = (0, false, buf) ∧
    stress_memrate_write_nt_rate false memrate_bytes W wr_mbs t1 clock buf =
      (0, false, buf, []) := by
  constructor <;> rfl

/-- C9: after a first SIGALRM jump nothing disarms the handler, so a second
expiry delivered during teardown re-enters the jump and the `tidy` path's
`munmap` executes twice; no transition of the child ever clears the armed
flag. -/
theorem memrate_child_second_alarm_double_munmap :
    (stress_memrate_child_step
        (stress_memrate_child_step stress_memrate_child_init ChildEvent.alarm)
        ChildEvent.alarm).munmaps = 2 ∧
    (stress_memrate_child_step
        (stress_memrate_child_step stress_memrate_child_init ChildEvent.alarm)
        ChildEvent.alarm).phase = ChildPhase.tidy ∧
    ∀ (s : ChildState) (ev : ChildEvent),
      (stress_memrate_child_step s ev).armed = s.armed := by
  refine ⟨rfl, rfl, ?_⟩
  intro s ev
  obtain ⟨ph, mm, ar⟩ := s
  cases ev <;> cases ph <;> cases ar <;> rfl

/-- C7 counterexample: a stats slot with `valid = false` (here with a
positive accumulated duration, as an SSE2-less non-temporal strategy leaves
after several dispatch rounds) is skipped by the `continue` and produces no
report line at all — in particular not the "interrupted early" line the
claim promises for every non-valid slot. -/
theorem memrate_report_invalid_skipped_cex :
    stress_memrate_report
        [("write64nt", { duration := 1, kbytes := 5, valid := false })] = [] ∧
    stress_memrate_report_slot "write64nt"
        { duration := 1, kbytes := 5, valid := false } ≠
      some (MemrateReport.interrupted_early "write64nt") := by
  constructor
  · rfl
  · simp [stress_memrate_report_slot]

/-- C7 (amended): the reporter emits the rate `kbytes / (duration * 1024)`
exactly when the slot is valid with strictly positive duration, emits
"interrupted early" exactly when the slot is valid with non-positive
duration, and emits nothing at all exactly when the slot is not valid (the
slot remains visible as `valid = false` only in the stats table itself, not
in the printed report). -/
theorem memrate_report_characterization (name : String)
    (s : stress_memrate_stats_t) :
    (stress_memrate_report_slot name s = none ↔ s.valid = false) ∧
    (stress_memrate_report_slot name s =
        some (MemrateReport.metric name (s.kbytes / (s.duration * (KB : ℚ)))) ↔
      s.valid = true ∧ 0 < s.duration) ∧
    (stress_memrate_report_slot name s =
        some (MemrateReport.interrupted_early name) ↔
      s.valid = true ∧ ¬ 0 < s.duration) := by
  obtain ⟨dur, kb, v⟩ := s
  cases v
  · simp [stress_memrate_report_slot]
  · by_cases hd : 0 < dur
    · simp [stress_memrate_report_slot, hd]
    · simp [stress_memrate_report_slot, hd]

/-- C1 counterexample: a run whose only dispatch is cut off by SIGALRM with
5 partial kilobytes processed leaves the slot at 0 kilobytes — the partial
kilobytes are not added to the slot, contrary to the claim that the slot
still receives them. -/
theorem memrate_child_interrupt_drops_partial_cex :
    (runDispatches memrate_stats_init [(0, DispatchEvent.alarmDuring 5)] 0).kbytes = 0 ∧
    ¬ ((runDispatches memrate_stats_init [(0, DispatchEvent.alarmDuring 5)] 0).kbytes =
        (memrate_stats_init 0).kbytes + 5) := by
  refine ⟨rfl, ?_⟩
  simp only [runDispatches, memrate_stats_init]
  norm_num

/-- C1 (amended): a dispatch cut off by the SIGALRM jump contributes nothing
to its stats slot: the accumulation statements after
`stress_memrate_dispatch` are skipped by the jump, so the stats are exactly
those produced by the dispatches completed before the interruption — earlier
completed accumulations are kept (not rolled back), but the in-flight
dispatch's partial kilobytes are lost. -/
theorem memrate_child_interrupt_accumulation_skipped
    (stats : ℕ → stress_memrate_stats_t) (es : List (ℕ × DispatchEvent))
    (i p : ℕ) (rest : List (ℕ × DispatchEvent))
    (h : ∀ x ∈ es, x.2.isAlarm = false) :
    runDispatches stats (es ++ (i, DispatchEvent.alarmDuring p) :: rest) =
      runDispatches stats es := by
  induction es generalizing stats with
  | nil => simp only [List.nil_append, runDispatches]
  | cons hd tl ih =>
    obtain ⟨j, ev⟩ := hd
    cases ev with
    | completed kb ta tb v =>
      simp only [List.cons_append, runDispatches]
      exact ih _ (fun x hx => h x (List.mem_cons_of_mem _ hx))
    | alarmDuring q =>
      have hcon := h (j, DispatchEvent.alarmDuring q) (List.mem_cons_self _ _)
      simp [DispatchEvent.isAlarm] at hcon

/-- Witness for C1 (amended) at a concrete input: one completed dispatch
followed by an interrupted one gives the same stats as the completed
dispatch alone. -/
theorem memrate_child_interrupt_accumulation_skipped_witness :
    runDispatches memrate_stats_init
        ([(0, DispatchEvent.completed 3 0 1 true)] ++
          (0, DispatchEvent.alarmDuring 5) :: []) =
      runDispatches memrate_stats_init [(0, DispatchEvent.completed 3 0 1 true)] :=
  memrate_child_interrupt_accumulation_skipped memrate_stats_init
    [(0, DispatchEvent.completed 3 0 1 true)] 0 5 []
    (by
      intro x hx
      simp only [List.mem_singleton] at hx
      subst hx
      rfl)

/-- C8: the stats slots are initialized to zero duration, zero kilobytes and
`valid = false` before the first dispatch, and the driver's per-dispatch
updates only add non-negative amounts (`uint64_t` kilobytes and a
non-negative time difference), so accumulated duration and kilobytes never
decrease over the run. -/
theorem memrate_stats_monotone_init
    (stats : ℕ → stress_memrate_stats_t) (es : List (ℕ × DispatchEvent)) (j : ℕ)
    (h : ∀ x ∈ es, x.2.timeOk) :
    memrate_stats_init j = { duration := 0, kbytes := 0, valid := false } ∧
    (stats j).duration ≤ (runDispatches stats es j).duration ∧
    (stats j).kbytes ≤ (runDispatches stats es j).kbytes := by
  refine ⟨rfl, ?_⟩
  induction es generalizing stats with
  | nil => simp only [runDispatches]; exact ⟨le_refl _, le_refl _⟩
  | cons hd tl ih =>
    obtain ⟨k, ev⟩ := hd
    cases ev with
    | completed kb ta tb v =>
      simp only [runDispatches]
      have hstep := ih (updateSlot stats k kb (tb - ta) v)
        (fun x hx => h x (List.mem_cons_of_mem _ hx))
      have hta : ta ≤ tb := h (k, DispatchEvent.completed kb ta tb v)
        (List.mem_cons_self _ _)
      have hupd : (stats j).duration ≤ (updateSlot stats k kb (tb - ta) v j).duration ∧
          (stats j).kbytes ≤ (updateSlot stats k kb (tb - ta) v j).kbytes := by
        by_cases hj : j = k
        · subst hj
          have hself : updateSlot stats j kb (tb - ta) v j =
              { duration := (stats j).duration + (tb - ta),
                kbytes := (stats j).kbytes + (kb : ℚ), valid := v } := by
            unfold updateSlot
            simp
          rw [hself]
          have hkb : (0 : ℚ) ≤ (kb : ℚ) := Nat.cast_nonneg kb
          exact ⟨by dsimp only; linarith, by dsimp only; linarith⟩
        · have hother : updateSlot stats k kb (tb - ta) v j = stats j := by
            unfold updateSlot
            simp [hj]
          rw [hother]
          exact ⟨le_refl _, le_refl _⟩
      exact ⟨le_trans hupd.1 hstep.1, le_trans hupd.2 hstep.2⟩
    | alarmDuring q =>
      simp only [runDispatches]
      exact ⟨le_refl _, le_refl _⟩

/-- Witness for C8 at a concrete input: one completed dispatch of 3 KB
between times 0 and 1 keeps both accumulators at least at their initial
values. -/
theorem memrate_stats_monotone_init_witness :
    memrate_stats_init 0 = { duration := 0, kbytes := 0, valid := false } ∧
    (memrate_stats_init 0).duration ≤
      (runDispatches memrate_stats_init
        [(0, DispatchEvent.completed 3 0 1 true)] 0).duration ∧
    (memrate_stats_init 0).kbytes ≤
      (runDispatches memrate_stats_init
        [(0, DispatchEvent.completed 3 0 1 true)] 0).kbytes :=
  memrate_stats_monotone_init memrate_stats_init
    [(0, DispatchEvent.completed 3 0 1 true)] 0
    (by
      intro x hx
      simp only [List.mem_singleton] at hx
      subst hx
      show (0 : ℚ) ≤ 1
      norm_num)

/-- C2 counterexample: 5120 bytes is a valid configuration (a 1024-byte
multiple of at least `MIN_MEMRATE_BYTES`), and the 1024-bit write strategy
(element width 128 bytes, step `16 * 128 = 2048` bytes) returns 6 KB with
`valid = true` on it — strictly more than `buffer_size / 1024 = 5` KB,
because the final 16-element step passes the end of the buffer rather than
leaving the uneven tail unvisited. -/
theorem memrate_write1024_overrun_cex :
    5120 % 1024 = 0 ∧ MIN_MEMRATE_BYTES ≤ 5120 ∧
    stress_memrate_write 5120 128 = (6, true) ∧
    ¬ ((stress_memrate_write 5120 128).1 ≤ 5120 / 1024) := by
  have hstep : (0 : ℕ) < 16 * 128 := by norm_num
  have h1 := memrateLoopPtr_eq (16 * 128) hstep (5120 - 0) 0 5120 rfl
  have hw : stress_memrate_write 5120 128 = (6, true) := by
    unfold stress_memrate_write
    rw [h1]
    norm_num [KB]
  refine ⟨by norm_num, by norm_num [MIN_MEMRATE_BYTES, KB], hw, ?_⟩
  rw [hw]
  norm_num

/-- C2 (amended): an unthrottled 16-element-step strategy of element width
`W` processes the buffer size rounded up to a whole number of `16 * W`-byte
steps — the final step passes the end when `16 * W` does not divide the
size, so the returned kilobytes can exceed `buffer_size / 1024`; they equal
`buffer_size / 1024` exactly when `16 * W` divides the size (always true for
widths up to 64 bytes, since sizes are 1024-byte multiples), and the
`memset` strategy returns exactly `buffer_size / 1024`. -/
theorem memrate_unthrottled_kbytes_closed_form (memrate_bytes W : ℕ)
    (hW : 0 < W) :
    stress_memrate_write memrate_bytes W =
      (16 * W * ((memrate_bytes + 16 * W - 1) / (16 * W)) / KB, true) ∧
    stress_memrate_read memrate_bytes W =
      (16 * W * ((memrate_bytes + 16 * W - 1) / (16 * W)) / KB, true) ∧
    memrate_bytes ≤ 16 * W * ((memrate_bytes + 16 * W - 1) / (16 * W)) ∧
    (16 * W ∣ memrate_bytes →
      (stress_memrate_write memrate_bytes W).1 = memrate_bytes / KB) ∧
    stress_memrate_memset memrate_bytes = (memrate_bytes / KB, true) := by
  have hstep : (0 : ℕ) < 16 * W := by omega
  have h1 := memrateLoopPtr_eq (16 * W) hstep (memrate_bytes - 0) 0 memrate_bytes rfl
  rw [Nat.zero_add, Nat.sub_zero] at h1
  have hbound : memrate_bytes ≤ 16 * W * ((memrate_bytes + 16 * W - 1) / (16 * W)) := by
    rcases Nat.eq_zero_or_pos memrate_bytes with hz | hpos
    · omega
    · have hge := memrateLoopPtr_ge (16 * W) 0 memrate_bytes hstep hpos
      rw [h1] at hge
      exact hge
  refine ⟨?_, ?_, hbound, ?_, rfl⟩
  · unfold stress_memrate_write
    rw [h1]
  · unfold stress_memrate_read
    rw [h1]
  · intro hdvd
    have hexact := memrateLoopPtr_exact (16 * W) 0 memrate_bytes hstep hdvd
    rw [Nat.zero_add] at hexact
    unfold stress_memrate_write
    rw [hexact]

/-- Witness for C2 (amended) at a concrete input: 4096 bytes with the 64-bit
strategy (width 8 bytes). -/
theorem memrate_unthrottled_kbytes_closed_form_witness :
    stress_memrate_write 4096 8 = (4, true) ∧
    stress_memrate_read 4096 8 = (4, true) ∧
    stress_memrate_memset 4096 = (4, true) := by
  have h := memrate_unthrottled_kbytes_closed_form 4096 8 (by norm_num)
  obtain ⟨hw, hr, _, _, hm⟩ := h
  refine ⟨?_, ?_, ?_⟩
  · rw [hw]
    norm_num [KB]
  · rw [hr]
    norm_num [KB]
  · rw [hm]
    norm_num [KB]

/-- C3 counterexample: for a 1 MiB buffer and a 2048-byte step (the 1024-bit
strategies), every power of two from 1 K to 1 M divides the buffer size
evenly, yet `stress_memrate_loops` returns the best-fit count 512 — not the
largest dividing power of two (and not any power in the 1 K..1 M range,
since 512 < 2^10) — because each candidate `n = 2^k` also has to satisfy
`n <= best_fit = bytes / size`. -/
theorem memrate_loops_power_fallback_cex :
    stress_memrate_loops 1048576 2048 = 512 ∧
    (2 : ℕ) ^ 10 ∣ 1048576 ∧ (2 : ℕ) ^ 20 ∣ 1048576 ∧
    stress_memrate_loops 1048576 2048 ≠ 2 ^ 20 ∧
    stress_memrate_loops 1048576 2048 < 2 ^ 10 := by
  have h : stress_memrate_loops 1048576 2048 = 512 := by decide
  refine ⟨h, by norm_num, by norm_num, ?_, ?_⟩
  · rw [h]
    norm_num
  · rw [h]
    norm_num

/-- C3 (amended): `stress_memrate_loops` returns the largest power of two
`2^s` with `10 ≤ s ≤ 20` that both divides the buffer size evenly and does
not exceed `best_fit = bytes / size`, and falls back to `best_fit` exactly
when no power in that range satisfies both conditions (not merely when none
divides evenly); in all cases the chosen granularity times the per-step size
never exceeds the buffer. -/
theorem memrate_loops_characterization (memrate_bytes size : ℕ) :
    stress_memrate_loops memrate_bytes size * size ≤ memrate_bytes ∧
    ((∃ s, 10 ≤ s ∧ s ≤ 20 ∧ 2 ^ s ∣ memrate_bytes ∧
        2 ^ s ≤ memrate_bytes / size ∧
        stress_memrate_loops memrate_bytes size = 2 ^ s ∧
        (∀ t, s < t → t ≤ 20 → 2 ^ t ∣ memrate_bytes →
          ¬ 2 ^ t ≤ memrate_bytes / size)) ∨
      (stress_memrate_loops memrate_bytes size = memrate_bytes / size ∧
        ∀ s, 10 ≤ s → s ≤ 20 → 2 ^ s ∣ memrate_bytes →
          ¬ 2 ^ s ≤ memrate_bytes / size)) := by
  constructor
  · have hle := stress_memrate_loops_le memrate_bytes size
    calc stress_memrate_loops memrate_bytes size * size
        ≤ memrate_bytes / size * size := Nat.mul_le_mul_right _ hle
      _ ≤ memrate_bytes := Nat.div_mul_le_self _ _
  · unfold stress_memrate_loops
    rcases memrateLoopsGo_spec memrate_bytes (memrate_bytes / size) 11 with
      ⟨hr, hall⟩ | ⟨s, h1, h2, h3, h4, h5, h6⟩
    · right
      exact ⟨hr, fun s hs1 hs2 hdvd hle => hall s hs1 (by omega) ⟨hdvd, hle⟩⟩
    · left
      exact ⟨s, h1, by omega, h3, h4, h5,
        fun t ht1 ht2 htd htl => h6 t ht1 (by omega) ⟨htd, htl⟩⟩

/-- Sleep record of a whole `stress_memrate_memset_rate` call: one
`sleepEntry` per chunk, including the final partial chunk, with the chunk
count being the ceiling `⌈bytes / chunk_size⌉`. -/
theorem stress_memrate_memset_rate_sleeps (memrate_bytes : ℕ)
    (wr_mbs t1 : ℚ) (clock : ℕ → ℚ) (hb : 0 < memrate_bytes) :
    (stress_memrate_memset_rate memrate_bytes wr_mbs t1 clock).sleeps =
      (List.range ((memrate_bytes + min memrate_bytes MB - 1) / min memrate_bytes MB)).map
        (sleepEntry (((min memrate_bytes MB : ℕ) : ℚ) / ((MB : ℚ) * wr_mbs)) t1 clock) := by
  have hMB : (0 : ℕ) < MB := by norm_num [MB]
  have hc : (0 : ℕ) < min memrate_bytes MB := by omega
  have hloop := memsetRateLoop_spec (min memrate_bytes MB)
    (((min memrate_bytes MB : ℕ) : ℚ) / ((MB : ℚ) * wr_mbs)) t1 clock hc
    (memrate_bytes - 0) memrate_bytes 0 0 rfl
  simp only [Nat.sub_zero, Nat.cast_zero, zero_mul, zero_add] at hloop
  have hlt := fullChunks_lt (min memrate_bytes MB) hc memrate_bytes hb
  have he : ((fullChunks (min memrate_bytes MB) memrate_bytes : ℕ) : ℚ) *
        (((min memrate_bytes MB : ℕ) : ℚ) / ((MB : ℚ) * wr_mbs)) +
        ((min memrate_bytes MB : ℕ) : ℚ) / ((MB : ℚ) * wr_mbs) =
      (((fullChunks (min memrate_bytes MB) memrate_bytes : ℕ) : ℚ) + 1) *
        (((min memrate_bytes MB : ℕ) : ℚ) / ((MB : ℚ) * wr_mbs)) := by
    ring
  unfold stress_memrate_memset_rate
  dsimp only
  rw [hloop]
  dsimp only
  rw [if_pos (by omega)]
  dsimp only
  rw [← fullChunks_succ_eq (min memrate_bytes MB) hc memrate_bytes hb]
  rw [List.range_succ, List.map_append]
  congr 1
  simp only [List.map_cons, List.map_nil]
  congr 1
  rw [he]
  rfl

/-- Sleep record of a whole `STRESS_MEMRATE_READ_RATE` pass: one
`sleepEntry` per chunk of `loop_size = loops * sizeof(type) * 16` bytes,
the last chunk possibly partial, with the chunk count being the ceiling
`⌈bytes / loop_size⌉`. -/
theorem stress_memrate_read_rate_sleeps (memrate_bytes W : ℕ)
    (rd_mbs t1 : ℚ) (clock : ℕ → ℚ) (hW : 0 < W)
    (hWb : 16 * W ≤ memrate_bytes) :
    (stress_memrate_read_rate memrate_bytes W rd_mbs t1 clock).sleeps =
      (List.range ((memrate_bytes +
          stress_memrate_loops memrate_bytes (16 * W) * W * 16 - 1) /
          (stress_memrate_loops memrate_bytes (16 * W) * W * 16))).map
        (sleepEntry (((stress_memrate_loops memrate_bytes (16 * W) * W * 16 : ℕ) : ℚ) /
          ((MB : ℚ) * rd_mbs)) t1 clock) := by
  have hstep : (0 : ℕ) < 16 * W := by omega
  have hloops := stress_memrate_loops_pos memrate_bytes (16 * W) hstep hWb
  have hls : 0 < stress_memrate_loops memrate_bytes (16 * W) * W * 16 :=
    Nat.mul_pos (Nat.mul_pos hloops hW) (by norm_num)
  have hdvd : (16 * W) ∣ stress_memrate_loops memrate_bytes (16 * W) * W * 16 :=
    ⟨stress_memrate_loops memrate_bytes (16 * W), by ring⟩
  have hpass := memrateRatePass_sleeps (16 * W)
    (stress_memrate_loops memrate_bytes (16 * W) * W * 16)
    (((stress_memrate_loops memrate_bytes (16 * W) * W * 16 : ℕ) : ℚ) / ((MB : ℚ) * rd_mbs))
    t1 clock hstep hls hdvd (memrate_bytes - 0) memrate_bytes 0 0 rfl
  simp only [Nat.sub_zero, Nat.cast_zero, zero_mul, zero_add] at hpass
  unfold stress_memrate_read_rate
  dsimp only
  rw [hpass]

/-- C4: in every rate-limited pass (shown for `stress_memrate_memset_rate`
and the `STRESS_MEMRATE_READ_RATE` chunk loop), the controller keeps one
cumulative budget across chunks: after chunk `j` (0-based, the final
possibly-partial chunk included) the budget is `(j + 1) * dur` with
`dur = chunk_bytes / (MB * target)`, the slack is the budget minus the
elapsed wall time since pass start, and the controller sleeps exactly the
slack when it is non-negative and not at all when it is negative — the
`sleepEntry` closed form of the whole recorded sleep sequence. -/
theorem memrate_rate_controller_budget (memrate_bytes W : ℕ)
    (wr_mbs rd_mbs t1 : ℚ) (clock : ℕ → ℚ)
    (hb : 0 < memrate_bytes) (hW : 0 < W) (hWb : 16 * W ≤ memrate_bytes) :
    (stress_memrate_memset_rate memrate_bytes wr_mbs t1 clock).sleeps =
      (List.range ((memrate_bytes + min memrate_bytes MB - 1) / min memrate_bytes MB)).map
        (sleepEntry (((min memrate_bytes MB : ℕ) : ℚ) / ((MB : ℚ) * wr_mbs)) t1 clock) ∧
    (stress_memrate_read_rate memrate_bytes W rd_mbs t1 clock).sleeps =
      (List.range ((memrate_bytes +
          stress_memrate_loops memrate_bytes (16 * W) * W * 16 - 1) /
          (stress_memrate_loops memrate_bytes (16 * W) * W * 16))).map
        (sleepEntry (((stress_memrate_loops memrate_bytes (16 * W) * W * 16 : ℕ) : ℚ) /
          ((MB : ℚ) * rd_mbs)) t1 clock) :=
  ⟨stress_memrate_memset_rate_sleeps memrate_bytes wr_mbs t1 clock hb,
   stress_memrate_read_rate_sleeps memrate_bytes W rd_mbs t1 clock hW hWb⟩

/-- Witness for C4 at a concrete input: a 2048-byte buffer at 1 MB/s with a
clock that never advances gives exactly one chunk whose slack
`2048 / 2^20 = 1/512` seconds is slept in full, for both the memset-rate
strategy and the 64-bit read-rate strategy. -/
theorem memrate_rate_controller_budget_witness :
    (stress_memrate_memset_rate 2048 1 0 (fun _ => 0)).sleeps = [some (1 / 512)] ∧
    (stress_memrate_read_rate 2048 8 1 0 (fun _ => 0)).sleeps = [some (1 / 512)] := by
  have h := memrate_rate_controller_budget 2048 8 1 1 0 (fun _ => 0)
    (by norm_num) (by norm_num) (by norm_num)
  obtain ⟨h1, h2⟩ := h
  constructor
  · rw [h1]
    norm_num [MB, sleepEntry, List.range_succ]
  · rw [h2]
    have hl : stress_memrate_loops 2048 (16 * 8) = 16 := by decide
    rw [hl]
    norm_num [MB, sleepEntry, List.range_succ]
